import Mathlib

/-!
# Verification of `blist`: a chain of bounded sorted buffers

Shallow embedding of the repository's core data structure:

* `BArrayVec<T, N>` (src/list.rs) — a nonempty bounded sorted buffer — is
  modelled as the list of its initialized slots (`List α`), with the
  capacity `N` passed as an explicit parameter.  A `panic!` (or UB such as
  `unreachable_unchecked`) is modelled by `Option`/`none`.
* `Node<T, N>` (src/lib.rs) — a chain node owning one buffer and an
  optional successor — is modelled as the nonempty list of the buffers of
  the chain hanging off the node (head = the node's own buffer).
* `LinkedLists<T, N>` (src/lib.rs) — the public container — is a structure
  holding the (possibly empty) chain of buffers plus the running length.

The element type is any `LinearOrder` (the code requires `T: Ord`).
-/

namespace Blist

variable {α : Type} [LinearOrder α]

/-- Tag `AbsoluteOrdering` from src/list.rs: side tag for an element strictly
outside a buffer's current range. -/
inductive AbsoluteOrdering : Type where
  | Less : AbsoluteOrdering
  | Greater : AbsoluteOrdering
deriving DecidableEq, Repr

/-- Result of `BArrayVec::insert`
(`Result<Option<T>, (T, AbsoluteOrdering)>` in src/list.rs):
`ok none` = absorbed, `ok (some e)` = evicted `e`,
`err it d` = rejected, handing back `it` with direction `d`. -/
inductive InsertResult (α : Type) : Type where
  | ok : Option α → InsertResult α
  | err : α → AbsoluteOrdering → InsertResult α
deriving DecidableEq, Repr

/-- The loop of Rust's `slice::binary_search` (called by the source) on the
slice `l`, searching `x` between `left` (inclusive) and `right` (exclusive):
`.ok i` = found an equal element at `i`, `.error j` = not found, `j` is the
insertion point.  The loop terminates because `right - left` strictly
decreases; it is written with a structural `fuel` counter (started at the
slice length, which `bsGo_ok_spec`/`bsGo_err_spec` show is always enough,
so the fuel-exhausted arm is never taken from `binarySearch`).
Out-of-range reads (which never occur when the search is started with
`right = l.length`) are modelled with default `x`. -/
def bsGo (l : List α) (x : α) : ℕ → ℕ → ℕ → Except ℕ ℕ
  | 0, left, _ => .error left
  | fuel + 1, left, right =>
    if left < right then
      if l.getD (left + (right - left) / 2) x < x then
        bsGo l x fuel (left + (right - left) / 2 + 1) right
      else if x < l.getD (left + (right - left) / 2) x then
        bsGo l x fuel left (left + (right - left) / 2)
      else
        .ok (left + (right - left) / 2)
    else
      .error left

/-- Rust `slice::binary_search` over the whole slice. -/
def binarySearch (l : List α) (x : α) : Except ℕ ℕ :=
  bsGo l x l.length 0 l.length

/-- Constructor `BArrayVec::new` (src/list.rs, lines 72–83): asserts
`N != 0 && N < u8::MAX as usize` (i.e. `0 < N < 255`), then builds a buffer
holding exactly `item`.  `none` models the `assert!` panic. -/
def newBuf (N : ℕ) (item : α) : Option (List α) :=
  if N ≠ 0 ∧ N < 255 then some [item] else none

/-- Internal `BArrayVec::_insert` (src/list.rs, lines 135–165): insert `item` at
`index`, shifting later items right; when the buffer is full the last
element (the max) is popped and returned.  `none` models the
`panic!("insert overflows allocation ...")` taken when `¬ index < len`. -/
def insertAt (N : ℕ) (l : List α) (index : ℕ) (item : α) :
    Option (List α × Option α) :=
  if index < l.length then
    if l.length = N then
      some (l.take index ++ item :: (l.drop index).dropLast,
            some (l.getLastD item))
    else
      some (l.take index ++ item :: l.drop index, none)
  else
    none

/-- Internal `BArrayVec::_push` (src/list.rs, lines 109–121): append at the end
unless full; when full the item is handed back (`.error`). -/
def pushBack (N : ℕ) (l : List α) (item : α) : Except α (List α) :=
  if l.length ≠ N then .ok (l ++ [item]) else .error item

/-- Internal `BArrayVec::_push_front` (src/list.rs, lines 123–133): hand the item
back if full, otherwise `_insert` at index 0.  The
`unreachable_unchecked` arm (an eviction from a non-full buffer) and the
`_insert` panic are modelled by `none`. -/
def pushFront (N : ℕ) (l : List α) (item : α) : Option (Except α (List α)) :=
  if l.length = N then some (.error item)
  else
    match insertAt N l 0 item with
    | some (l2, none) => some (.ok l2)
    | _ => none

/-- Public `BArrayVec::insert` (src/list.rs, lines 173–187).  The buffer is the
list `l` of its initialized slots; its min is `l`'s head and its max is
`l`'s last element.  UB on an empty buffer (the source buffer is never
empty) and panics are modelled by `none`. -/
def bufInsert (N : ℕ) (item : α) : List α → Option (List α × InsertResult α)
  | [] => none
  | a :: t =>
    if (a :: t).getLastD a < item then
      match pushBack N (a :: t) item with
      | .ok l2 => some (l2, .ok none)
      | .error it => some (a :: t, .err it .Greater)
    else if item < a then
      match pushFront N (a :: t) item with
      | some (.ok l2) => some (l2, .ok none)
      | some (.error it) => some (a :: t, .err it .Less)
      | none => none
    else
      match binarySearch (a :: t) item with
      | .ok index | .error index =>
        (insertAt N (a :: t) index item).map (fun p => (p.1, .ok p.2))

/-- Public `BArrayVec::find` (src/list.rs, lines 191–203): `.error` = out of the
buffer's range on the given side, `.ok (some i)` = equal element at `i`,
`.ok none` = in range but absent.  (The `[]` case is unreachable: source
buffers are nonempty.) -/
def bufFind (item : α) : List α → Except AbsoluteOrdering (Option ℕ)
  | [] => .ok none
  | a :: t =>
    if (a :: t).getLastD a < item then .error .Greater
    else if item < a then .error .Less
    else
      match binarySearch (a :: t) item with
      | .ok index => .ok (some index)
      | .error _ => .ok none

/-- Chain-node `Node::insert` (src/lib.rs, lines 62–80) on the chain of buffers
hanging off a node (head = the node's own buffer):
* buffer rejects Less → a fresh node (via `BArrayVec::new`) holding the
  item is swapped in front, the old contents pushed one link deeper;
* buffer rejects Greater, or evicts its old max → recurse into the
  successor, or create a fresh tail node;
* absorbed → done.
The `[]` case never arises (a node always has a buffer). -/
def nodeInsert (N : ℕ) (item : α) : List (List α) → Option (List (List α))
  | [] => none
  | b :: rest =>
    match bufInsert N item b with
    | none => none
    | some (b2, .err it .Less) =>
      (newBuf N it).map (fun nb => nb :: b2 :: rest)
    | some (b2, .err it .Greater) | some (b2, .ok (some it)) =>
      match rest with
      | [] => (newBuf N it).map (fun nb => [b2, nb])
      | c :: rest2 => (nodeInsert N it (c :: rest2)).map (fun r => b2 :: r)
    | some (b2, .ok none) => some (b2 :: rest)

/-- Chain-node `Node::find` (src/lib.rs, lines 81–87): search the node's buffer;
out-of-range Greater → recurse into the successor (`[]` = no successor ⇒
not found); out-of-range Less → not found. -/
def nodeFind (item : α) : List (List α) → Option ℕ
  | [] => none
  | b :: rest =>
    match bufFind item b with
    | .ok r => r
    | .error .Greater => nodeFind item rest
    | .error .Less => none

/-- Container `LinkedLists<T, N>` (src/lib.rs, lines 93–97): optional root chain
(`root = []` = `None`) plus the running length. -/
structure LinkedLists (α : Type) : Type where
  root : List (List α)
  len : ℕ
deriving DecidableEq, Repr

/-- Constructor `LinkedLists::new` (src/lib.rs, lines 100–102). -/
def LinkedLists.new : LinkedLists α := ⟨[], 0⟩

/-- Container `LinkedLists::insert` (src/lib.rs, lines 112–120): create the root on
first insert, otherwise delegate to the root node; then `len += 1`.
`none` models a panic inside the call (no increment happens then). -/
def LinkedLists.insert (N : ℕ) (s : LinkedLists α) (item : α) :
    Option (LinkedLists α) :=
  match s.root with
  | [] => (newBuf N item).map (fun nb => ⟨[nb], s.len + 1⟩)
  | b :: rest => (nodeInsert N item (b :: rest)).map (fun c => ⟨c, s.len + 1⟩)

/-- Accessor `LinkedLists::len` (src/lib.rs, lines 103–105). -/
def LinkedLists.length (s : LinkedLists α) : ℕ := s.len

/-- Container `LinkedLists::find` (src/lib.rs, lines 121–123). -/
def LinkedLists.find (s : LinkedLists α) (item : α) : Option ℕ :=
  nodeFind item s.root

/-- Container `LinkedLists::contains` (src/lib.rs, lines 124–126). -/
def LinkedLists.contains (s : LinkedLists α) (item : α) : Bool :=
  (s.find item).isSome

/-- Run a whole sequence of `insert` calls on a container created empty,
propagating any panic. -/
def runInserts (N : ℕ) (xs : List α) : Option (LinkedLists α) :=
  xs.foldl (fun o item => o.bind (fun s => s.insert N item)) (some .new)

/-! ## Binary search lemmas -/

theorem bsGo_ok_spec (l : List α) (x : α) :
    ∀ (fuel left right i : ℕ), right - left ≤ fuel →
      bsGo l x fuel left right = .ok i →
      left ≤ i ∧ i < right ∧ l.getD i x = x := by
  intro fuel
  induction fuel with
  | zero =>
    intro left right i hd h
    exact absurd h (by simp [bsGo])
  | succ n ih =>
    intro left right i hd h
    unfold bsGo at h
    by_cases hlr : left < right
    · rw [if_pos hlr] at h
      by_cases h1 : l.getD (left + (right - left) / 2) x < x
      · rw [if_pos h1] at h
        have hrec := ih (left + (right - left) / 2 + 1) right i (by omega) h
        exact ⟨by omega, hrec.2.1, hrec.2.2⟩
      · rw [if_neg h1] at h
        by_cases h2 : x < l.getD (left + (right - left) / 2) x
        · rw [if_pos h2] at h
          have hrec := ih left (left + (right - left) / 2) i (by omega) h
          exact ⟨hrec.1, by omega, hrec.2.2⟩
        · rw [if_neg h2] at h
          simp only [Except.ok.injEq] at h
          subst h
          exact ⟨by omega, by omega, le_antisymm (not_lt.mp h2) (not_lt.mp h1)⟩
    · rw [if_neg hlr] at h
      exact absurd h (by simp)

theorem bsGo_err_spec (l : List α) (x : α) :
    ∀ (fuel left right j : ℕ), right - left ≤ fuel → left ≤ right →
      bsGo l x fuel left right = .error j →
      left ≤ j ∧ j ≤ right ∧
        (left < j → l.getD (j - 1) x < x) ∧
        (j < right → x < l.getD j x) := by
  intro fuel
  induction fuel with
  | zero =>
    intro left right j hd hle h
    simp only [bsGo, Except.error.injEq] at h
    subst h
    exact ⟨le_refl _, hle, fun hc => absurd hc (by omega),
      fun hc => absurd hc (by omega)⟩
  | succ n ih =>
    intro left right j hd hle h
    unfold bsGo at h
    by_cases hlr : left < right
    · rw [if_pos hlr] at h
      by_cases h1 : l.getD (left + (right - left) / 2) x < x
      · rw [if_pos h1] at h
        have hrec := ih (left + (right - left) / 2 + 1) right j (by omega) (by omega) h
        refine ⟨by omega, hrec.2.1, fun hlt => ?_, hrec.2.2.2⟩
        by_cases hj : left + (right - left) / 2 + 1 < j
        · exact hrec.2.2.1 hj
        · have : j = left + (right - left) / 2 + 1 := by omega
          rw [this]
          simpa using h1
      · rw [if_neg h1] at h
        by_cases h2 : x < l.getD (left + (right - left) / 2) x
        · rw [if_pos h2] at h
          have hrec := ih left (left + (right - left) / 2) j (by omega) (by omega) h
          refine ⟨hrec.1, by omega, hrec.2.2.1, fun hlt => ?_⟩
          by_cases hj : j < left + (right - left) / 2
          · exact hrec.2.2.2 hj
          · have : j = left + (right - left) / 2 := by omega
            rw [this]
            exact h2
        · rw [if_neg h2] at h
          exact absurd h (by simp)
    · rw [if_neg hlr] at h
      simp only [Except.error.injEq] at h
      subst h
      exact ⟨le_refl _, hle, fun hc => absurd hc (by omega),
        fun hc => by omega⟩

theorem binarySearch_ok (l : List α) (x : α) (i : ℕ)
    (h : binarySearch l x = .ok i) : i < l.length ∧ l.getD i x = x := by
  have hs := bsGo_ok_spec l x l.length 0 l.length i (by omega) h
  exact ⟨hs.2.1, hs.2.2⟩

theorem binarySearch_err (l : List α) (x : α) (j : ℕ)
    (h : binarySearch l x = .error j) :
    j ≤ l.length ∧ (0 < j → l.getD (j - 1) x < x) ∧
      (j < l.length → x < l.getD j x) := by
  have hs := bsGo_err_spec l x l.length 0 l.length j (by omega) (by omega) h
  exact ⟨hs.2.1, hs.2.2.1, hs.2.2.2⟩

/-! ## Sorted-list helpers -/

omit [LinearOrder α] in
theorem getLastD_irrel (a : α) (t : List α) (d1 d2 : α) :
    (a :: t).getLastD d1 = (a :: t).getLastD d2 := by
  rw [List.getLastD_cons, List.getLastD_cons]

omit [LinearOrder α] in
theorem getD_eq_elem (l : List α) (d : α) (i : ℕ) (h : i < l.length) :
    l.getD i d = l[i] := by
  rw [List.getD_eq_getElem?_getD, List.getElem?_eq_getElem h]
  rfl

omit [LinearOrder α] in
theorem getLastD_eq_getD (l : List α) (d : α) :
    l.getLastD d = l.getD (l.length - 1) d := by
  rw [List.getLastD_eq_getLast?, List.getLast?_eq_getElem?,
    List.getD_eq_getElem?_getD]

theorem sorted_getD_le (l : List α) (hs : l.Sorted (· ≤ ·)) (i j : ℕ)
    (hij : i ≤ j) (hj : j < l.length) (d : α) : l.getD i d ≤ l.getD j d := by
  have hi : i < l.length := by omega
  rw [getD_eq_elem l d i hi, getD_eq_elem l d j hj]
  have := hs.rel_get_of_le (a := ⟨i, hi⟩) (b := ⟨j, hj⟩) (by exact hij)
  simpa using this

theorem sorted_head_le (a : α) (t : List α) (hs : (a :: t).Sorted (· ≤ ·))
    (b : α) (hb : b ∈ a :: t) : a ≤ b := by
  rcases List.mem_cons.mp hb with rfl | hb2
  · exact le_refl _
  · exact (List.sorted_cons.mp hs).1 b hb2

theorem sorted_le_getLastD (l : List α) (hs : l.Sorted (· ≤ ·)) (b : α)
    (hb : b ∈ l) (d : α) : b ≤ l.getLastD d := by
  obtain ⟨i, hi, rfl⟩ := List.mem_iff_getElem.mp hb
  rw [getLastD_eq_getD l d, ← getD_eq_elem l d i hi]
  exact sorted_getD_le l hs i (l.length - 1) (by omega) (by omega) d

/-- Inserting `x` in the middle of a sorted list at an index whose
neighbours bound `x` keeps the list sorted. -/
theorem sorted_insert_mid (x : α) :
    ∀ (l : List α) (idx : ℕ), l.Sorted (· ≤ ·) → idx ≤ l.length →
      (0 < idx → l.getD (idx - 1) x ≤ x) →
      (idx < l.length → x ≤ l.getD idx x) →
      (l.take idx ++ x :: l.drop idx).Sorted (· ≤ ·) := by
  intro l
  induction l with
  | nil =>
    intro idx _ hlen _ _
    have : idx = 0 := by simpa using hlen
    subst this
    simp [List.Sorted]
  | cons a t ih =>
    intro idx hs hlen hlo hhi
    match idx with
    | 0 =>
      simp only [List.take_zero, List.drop_zero, List.nil_append]
      rw [List.sorted_cons]
      refine ⟨fun b hb => ?_, hs⟩
      have hxa : x ≤ a := by simpa [List.getD_cons_zero] using hhi (by simp)
      exact le_trans hxa (sorted_head_le a t hs b hb)
    | idx + 1 =>
      simp only [List.take_succ_cons, List.drop_succ_cons, List.cons_append]
      rw [List.sorted_cons]
      constructor
      · intro b hb
        have hax : a ≤ x := by
          have h0 := hlo (by omega)
          match idx, hlen with
          | 0, _ => simpa [List.getD_cons_zero] using h0
          | m + 1, hlen =>
            have hgd : (a :: t).getD (m + 1) x = t.getD m x :=
              List.getD_cons_succ
            rw [show m + 1 + 1 - 1 = m + 1 by omega, hgd] at h0
            have hmem : t.getD m x ∈ t := by
              rw [getD_eq_elem t x m
                (by simp only [List.length_cons] at hlen; omega)]
              exact List.getElem_mem _
            exact le_trans ((List.sorted_cons.mp hs).1 _ hmem) h0
        rcases List.mem_append.mp hb with hb1 | hb2
        · exact (List.sorted_cons.mp hs).1 b (List.mem_of_mem_take hb1)
        · rcases List.mem_cons.mp hb2 with rfl | hb3
          · exact hax
          · exact (List.sorted_cons.mp hs).1 b (List.mem_of_mem_drop hb3)
      · refine ih idx (List.sorted_cons.mp hs).2 (by simpa using hlen)
          (fun hpos => ?_) (fun hlt => ?_)
        · have h0 := hlo (by omega)
          rw [show idx + 1 - 1 = (idx - 1) + 1 by omega,
            List.getD_cons_succ] at h0
          exact h0
        · have h0 := hhi (by simpa using hlt)
          rw [List.getD_cons_succ] at h0
          exact h0

/-! ## `insertAt` lemmas -/

omit [LinearOrder α] in
theorem insert_mid_perm (x : α) (l : List α) (idx : ℕ) :
    (l.take idx ++ x :: l.drop idx).Perm (x :: l) := by
  have h := @List.perm_middle _ x (l.take idx) (l.drop idx)
  rwa [List.take_append_drop] at h

omit [LinearOrder α] in
theorem dropLast_take_drop (l : List α) (idx : ℕ) (hidx : idx < l.length) :
    l.take idx ++ (l.drop idx).dropLast = l.dropLast := by
  have hd : l.drop idx ≠ [] := by
    intro hc
    have := congrArg List.length hc
    simp only [List.length_drop, List.length_nil] at this
    omega
  conv_rhs => rw [← List.take_append_drop idx l]
  rw [List.dropLast_append_of_ne_nil _ hd]

omit [LinearOrder α] in
theorem dropLast_concat_getLastD (l : List α) (hne : l ≠ []) (d : α) :
    l.dropLast ++ [l.getLastD d] = l := by
  rw [List.getLastD_eq_getLast?, List.getLast?_eq_getLast l hne,
    Option.getD_some]
  exact List.dropLast_concat_getLast hne

omit [LinearOrder α] in
theorem insertAt_not_full (N : ℕ) (l : List α) (idx : ℕ) (x : α)
    (hidx : idx < l.length) (hnf : l.length ≠ N) :
    insertAt N l idx x = some (l.take idx ++ x :: l.drop idx, none) := by
  unfold insertAt
  rw [if_pos hidx, if_neg hnf]

omit [LinearOrder α] in
theorem insertAt_full (N : ℕ) (l : List α) (idx : ℕ) (x : α)
    (hidx : idx < l.length) (hf : l.length = N) :
    insertAt N l idx x =
      some (l.take idx ++ x :: (l.drop idx).dropLast,
        some (l.getLastD x)) := by
  unfold insertAt
  rw [if_pos hidx, if_pos hf]

/-! ## `bufInsert` branch lemmas -/

/-- In the binary-search branch of `BArrayVec::insert` (neither fast path
taken), the computed index is in range and its neighbours bound the item:
the defensive panic of `_insert` is unreachable there. -/
theorem bufInsert_mid (N : ℕ) (x a : α) (t : List α)
    (hs : (a :: t).Sorted (· ≤ ·))
    (h1 : ¬ (a :: t).getLastD a < x) (h2 : ¬ x < a) :
    ∃ idx,
      (binarySearch (a :: t) x = .ok idx ∨
        binarySearch (a :: t) x = .error idx) ∧
      idx < (a :: t).length ∧
      (0 < idx → (a :: t).getD (idx - 1) x ≤ x) ∧
      x ≤ (a :: t).getD idx x ∧
      bufInsert N x (a :: t) =
        (insertAt N (a :: t) idx x).map (fun p => (p.1, .ok p.2)) := by
  have hmaxx :
      (a :: t).getD ((a :: t).length - 1) x = (a :: t).getLastD a := by
    rw [← getLastD_eq_getD, getLastD_irrel a t x a]
  have hunf : bufInsert N x (a :: t) =
      match binarySearch (a :: t) x with
      | .ok index | .error index =>
        (insertAt N (a :: t) index x).map (fun p => (p.1, .ok p.2)) := by
    simp only [bufInsert]
    rw [if_neg h1, if_neg h2]
  cases hbs : binarySearch (a :: t) x with
  | ok i =>
    obtain ⟨hilen, hieq⟩ := binarySearch_ok (a :: t) x i hbs
    refine ⟨i, Or.inl rfl, hilen, fun hpos => ?_, by rw [hieq], ?_⟩
    · calc (a :: t).getD (i - 1) x ≤ (a :: t).getD i x :=
            sorted_getD_le _ hs _ _ (by omega) hilen x
        _ = x := hieq
    · rw [hunf, hbs]
  | error j =>
    obtain ⟨hjle, hjlo, hjhi⟩ := binarySearch_err (a :: t) x j hbs
    have hjlen : j < (a :: t).length := by
      by_contra hc
      have hj : j = (a :: t).length := by omega
      have := hjlo (by simp [hj])
      rw [hj, hmaxx] at this
      exact h1 this
    refine ⟨j, Or.inr rfl, hjlen,
      fun hpos => le_of_lt (hjlo hpos), le_of_lt (hjhi hjlen), ?_⟩
    rw [hunf, hbs]

/-- Master specification of `BArrayVec::insert` on a reachable buffer:
the call succeeds (no panic), the result is a nonempty sorted buffer
within capacity, and the outcome is absorbed / evicted-old-max /
rejected-unchanged. -/
theorem bufInsert_spec (N : ℕ) (x a : α) (t : List α)
    (hs : (a :: t).Sorted (· ≤ ·)) (hlen : (a :: t).length ≤ N) :
    ∃ b2 res, bufInsert N x (a :: t) = some (b2, res) ∧
      b2 ≠ [] ∧ b2.length ≤ N ∧ b2.Sorted (· ≤ ·) ∧
      ((res = InsertResult.ok none ∧ b2.Perm (x :: a :: t)) ∨
       (res = InsertResult.ok (some ((a :: t).getLastD a)) ∧
         (b2 ++ [(a :: t).getLastD a]).Perm (x :: a :: t) ∧
         (a :: t).length = N) ∨
       (∃ d, res = InsertResult.err x d ∧ b2 = a :: t ∧
         (a :: t).length = N)) := by
  by_cases h1 : (a :: t).getLastD a < x
  · -- `item > max`: `_push`
    by_cases hfull : (a :: t).length = N
    · refine ⟨a :: t, .err x .Greater, ?_, by simp, hlen, hs,
        Or.inr (Or.inr ⟨.Greater, rfl, rfl, hfull⟩)⟩
      simp only [bufInsert]
      rw [if_pos h1]
      unfold pushBack
      rw [if_neg (by omega)]
    · refine ⟨(a :: t) ++ [x], .ok none, ?_, by simp, ?_, ?_,
        Or.inl ⟨rfl, List.perm_append_singleton x (a :: t)⟩⟩
      · simp only [bufInsert]
        rw [if_pos h1]
        unfold pushBack
        rw [if_pos hfull]
      · simp only [List.length_append, List.length_singleton]
        simp only [List.length_cons] at hlen hfull ⊢
        omega
      · rw [List.Sorted, List.pairwise_append]
        refine ⟨hs, by simp [List.Sorted], fun b hb c hc => ?_⟩
        rcases List.mem_singleton.mp hc with rfl
        exact le_of_lt
          (lt_of_le_of_lt (sorted_le_getLastD _ hs b hb a) h1)
  · by_cases h2 : x < a
    · -- `item < min`: `_push_front`
      by_cases hfull : (a :: t).length = N
      · refine ⟨a :: t, .err x .Less, ?_, by simp, hlen, hs,
          Or.inr (Or.inr ⟨.Less, rfl, rfl, hfull⟩)⟩
        simp only [bufInsert]
        rw [if_neg h1, if_pos h2]
        unfold pushFront
        rw [if_pos hfull]
      · refine ⟨x :: a :: t, .ok none, ?_, by simp, ?_, ?_,
          Or.inl ⟨rfl, List.Perm.refl _⟩⟩
        · simp only [bufInsert]
          rw [if_neg h1, if_pos h2]
          unfold pushFront
          rw [if_neg hfull,
            insertAt_not_full N (a :: t) 0 x (by simp) hfull]
          simp
        · simp only [List.length_cons] at hlen hfull ⊢
          omega
        · rw [List.sorted_cons]
          exact ⟨fun b hb => le_trans (le_of_lt h2)
            (sorted_head_le a t hs b hb), hs⟩
    · -- middle: binary search then `_insert`
      obtain ⟨idx, _, hidx, hlo, hhi, heq⟩ :=
        bufInsert_mid N x a t hs h1 h2
      by_cases hfull : (a :: t).length = N
      · rw [insertAt_full N (a :: t) idx x hidx hfull] at heq
        simp only [Option.map_some'] at heq
        refine ⟨_, _, heq, ?_, ?_, ?_, Or.inr (Or.inl ⟨?_, ?_, hfull⟩)⟩
        · apply List.ne_nil_of_length_pos
          simp only [List.length_append, List.length_take,
            List.length_cons, List.length_dropLast, List.length_drop]
          omega
        · simp only [List.length_append, List.length_take,
            List.length_cons, List.length_dropLast, List.length_drop]
          simp only [List.length_cons] at hlen hidx ⊢
          omega
        · have hsM := sorted_insert_mid x (a :: t) idx hs
            (le_of_lt hidx) hlo (fun _ => hhi)
          have hsub : List.Sublist
              ((a :: t).take idx ++ x :: ((a :: t).drop idx).dropLast)
              ((a :: t).take idx ++ x :: (a :: t).drop idx) :=
            List.Sublist.append_left
              (List.Sublist.cons₂ x (List.dropLast_sublist _)) _
          exact List.Pairwise.sublist hsub hsM
        · rw [getLastD_irrel a t x a]
        · rw [getLastD_irrel a t a x]
          have hassoc : ((a :: t).take idx ++
                x :: ((a :: t).drop idx).dropLast) ++
                  [(a :: t).getLastD x] =
              (a :: t).take idx ++
                x :: (((a :: t).drop idx).dropLast ++
                  [(a :: t).getLastD x]) := by
            simp [List.append_assoc]
          rw [hassoc]
          have hperm := @List.perm_middle _ x ((a :: t).take idx)
            (((a :: t).drop idx).dropLast ++ [(a :: t).getLastD x])
          refine hperm.trans (List.Perm.cons x (List.Perm.of_eq ?_))
          rw [← List.append_assoc, dropLast_take_drop _ _ hidx,
            dropLast_concat_getLastD _ (by simp) x]
      · rw [insertAt_not_full N (a :: t) idx x hidx hfull] at heq
        simp only [Option.map_some'] at heq
        refine ⟨_, _, heq, ?_, ?_, ?_,
          Or.inl ⟨rfl, insert_mid_perm x (a :: t) idx⟩⟩
        · apply List.ne_nil_of_length_pos
          simp only [List.length_append, List.length_take,
            List.length_cons, List.length_drop]
          omega
        · simp only [List.length_append, List.length_take,
            List.length_cons, List.length_drop]
          simp only [List.length_cons] at hlen hidx hfull ⊢
          omega
        · exact sorted_insert_mid x (a :: t) idx hs
            (le_of_lt hidx) hlo (fun _ => hhi)

/-! ## Chain-level invariant and lemmas -/

/-- Per-node part of the reachable-state invariant: every buffer in the
chain is nonempty, within capacity, and internally sorted.  (The chain's
cross-node ordering is deliberately NOT part of this invariant: the code
does not maintain it, see the counterexamples below.) -/
def NodesOk (N : ℕ) (c : List (List α)) : Prop :=
  ∀ b ∈ c, b ≠ [] ∧ b.length ≤ N ∧ b.Sorted (· ≤ ·)

omit [LinearOrder α] in
theorem newBuf_ok (N : ℕ) (x : α) (hN : N ≠ 0) (h255 : N < 255) :
    newBuf N x = some [x] := by
  unfold newBuf
  rw [if_pos ⟨hN, h255⟩]

/-- Chain-node insert never panics on a reachable chain, keeps every buffer
nonempty / within capacity / sorted, and the multiset of stored elements
grows by exactly the inserted item. -/
theorem nodeInsert_spec (N : ℕ) (hN : N ≠ 0) (h255 : N < 255) :
    ∀ (c : List (List α)) (x : α), c ≠ [] → NodesOk N c →
      ∃ c2, nodeInsert N x c = some c2 ∧ c2 ≠ [] ∧ NodesOk N c2 ∧
        c2.flatten.Perm (x :: c.flatten) := by
  intro c
  induction c with
  | nil => intro x hne _; exact absurd rfl hne
  | cons b rest ih =>
    intro x _ hok
    obtain ⟨hbne, hblen, hbs⟩ := hok b (by simp)
    obtain ⟨a, t, rfl⟩ : ∃ a t, b = a :: t := by
      cases b with
      | nil => exact absurd rfl hbne
      | cons a t => exact ⟨a, t, rfl⟩
    have hrest : NodesOk N rest := fun b hb =>
      hok b (List.mem_cons_of_mem _ hb)
    obtain ⟨b2, res, hbuf, hb2ne, hb2len, hb2s, hcases⟩ :=
      bufInsert_spec N x a t hbs hblen
    rcases hcases with ⟨rfl, hperm⟩ | ⟨rfl, hperm, hfull⟩ |
      ⟨d, rfl, rfl, hfull⟩
    · -- absorbed: nothing further to do
      refine ⟨b2 :: rest, ?_, by simp, ?_, ?_⟩
      · simp only [nodeInsert, hbuf]
      · intro b hb
        rcases List.mem_cons.mp hb with rfl | hb3
        · exact ⟨hb2ne, hb2len, hb2s⟩
        · exact hrest b hb3
      · simp only [List.flatten_cons]
        have h := hperm.append_right rest.flatten
        simpa using h
    · -- evicted old max: cascade into the successor or create a tail
      cases rest with
      | nil =>
        refine ⟨[b2, [(a :: t).getLastD a]], ?_, by simp, ?_, ?_⟩
        · simp only [nodeInsert, hbuf, newBuf_ok N _ hN h255, Option.map_some']
        · intro b hb
          rcases List.mem_cons.mp hb with rfl | hb3
          · exact ⟨hb2ne, hb2len, hb2s⟩
          · rcases List.mem_singleton.mp hb3 with rfl
            exact ⟨by simp, by simp only [List.length_singleton]; omega, by simp [List.Sorted]⟩
        · simpa using hperm
      | cons c0 rest2 =>
        obtain ⟨r, hr, hrne, hrok, hrperm⟩ :=
          ih ((a :: t).getLastD a) (by simp) hrest
        refine ⟨b2 :: r, ?_, by simp, ?_, ?_⟩
        · simp only [nodeInsert, hbuf, hr, Option.map_some']
        · intro b hb
          rcases List.mem_cons.mp hb with rfl | hb3
          · exact ⟨hb2ne, hb2len, hb2s⟩
          · exact hrok b hb3
        · simp only [List.flatten_cons]
          have h1 := hrperm.append_left b2
          have h2 : b2 ++ (a :: t).getLastD a :: (c0 :: rest2).flatten =
              (b2 ++ [(a :: t).getLastD a]) ++ (c0 :: rest2).flatten := by
            simp
          have h3 := hperm.append_right (c0 :: rest2).flatten
          rw [h2] at h1
          have h := h1.trans h3
          simpa using h
    · -- rejected by the buffer
      cases d with
      | Less =>
        -- splice-front: fresh node with the item, old contents one deeper
        refine ⟨[x] :: (a :: t) :: rest, ?_, by simp, ?_, by simp⟩
        · simp only [nodeInsert, hbuf, newBuf_ok N _ hN h255, Option.map_some']
        · intro b hb
          rcases List.mem_cons.mp hb with rfl | hb3
          · exact ⟨by simp, by simp only [List.length_singleton]; omega, by simp [List.Sorted]⟩
          · rcases List.mem_cons.mp hb3 with rfl | hb4
            · exact ⟨hbne, hblen, hbs⟩
            · exact hrest b hb4
      | Greater =>
        cases rest with
        | nil =>
          refine ⟨[a :: t, [x]], ?_, by simp, ?_, ?_⟩
          · simp only [nodeInsert, hbuf, newBuf_ok N _ hN h255,
              Option.map_some']
          · intro b hb
            rcases List.mem_cons.mp hb with rfl | hb3
            · exact ⟨hbne, hblen, hbs⟩
            · rcases List.mem_singleton.mp hb3 with rfl
              exact ⟨by simp, by simp only [List.length_singleton]; omega, by simp [List.Sorted]⟩
          · simpa using List.perm_append_singleton x (a :: t)
        | cons c0 rest2 =>
          obtain ⟨r, hr, hrne, hrok, hrperm⟩ := ih x (by simp) hrest
          refine ⟨(a :: t) :: r, ?_, by simp, ?_, ?_⟩
          · simp only [nodeInsert, hbuf, hr, Option.map_some']
          · intro b hb
            rcases List.mem_cons.mp hb with rfl | hb3
            · exact ⟨hbne, hblen, hbs⟩
            · exact hrok b hb3
          · simp only [List.flatten_cons]
            have h1 := hrperm.append_left (a :: t)
            have h := h1.trans
              (@List.perm_middle _ x (a :: t) ((c0 :: rest2).flatten))
            simpa using h

theorem insert_root_nil (N : ℕ) (s : LinkedLists α) (x : α)
    (h : s.root = []) :
    s.insert N x = (newBuf N x).map (fun nb => ⟨[nb], s.len + 1⟩) := by
  unfold LinkedLists.insert
  rw [h]

theorem insert_root_cons (N : ℕ) (s : LinkedLists α) (x : α) (b : List α)
    (rest : List (List α)) (h : s.root = b :: rest) :
    s.insert N x =
      (nodeInsert N x (b :: rest)).map (fun c => ⟨c, s.len + 1⟩) := by
  unfold LinkedLists.insert
  rw [h]

/-- Container insert never panics on a reachable state, increments
`len` by exactly one, and adds exactly the inserted item to the stored
multiset. -/
theorem insert_spec (N : ℕ) (hN : N ≠ 0) (h255 : N < 255)
    (s : LinkedLists α) (x : α) (hok : NodesOk N s.root) :
    ∃ s2, s.insert N x = some s2 ∧ NodesOk N s2.root ∧
      s2.len = s.len + 1 ∧ s2.root.flatten.Perm (x :: s.root.flatten) := by
  rcases hroot : s.root with _ | ⟨b, rest⟩
  · refine ⟨⟨[[x]], s.len + 1⟩, ?_, ?_, rfl, by simp⟩
    · rw [insert_root_nil N s x hroot, newBuf_ok N x hN h255,
        Option.map_some']
    · intro b hb
      rcases List.mem_singleton.mp hb with rfl
      exact ⟨by simp, by simp only [List.length_singleton]; omega,
        by simp [List.Sorted]⟩
  · obtain ⟨c2, hc2, hc2ne, hc2ok, hc2perm⟩ :=
      nodeInsert_spec N hN h255 (b :: rest) x (by simp) (hroot ▸ hok)
    refine ⟨⟨c2, s.len + 1⟩, ?_, hc2ok, rfl, hc2perm⟩
    rw [insert_root_cons N s x b rest hroot, hc2, Option.map_some']

theorem runInserts_go (N : ℕ) (hN : N ≠ 0) (h255 : N < 255) :
    ∀ (xs : List α) (s : LinkedLists α), NodesOk N s.root →
      ∃ s2,
        xs.foldl (fun o item => o.bind (fun s => s.insert N item))
            (some s) = some s2 ∧
        NodesOk N s2.root ∧ s2.len = s.len + xs.length ∧
        s2.root.flatten.Perm (s.root.flatten ++ xs) := by
  intro xs
  induction xs with
  | nil => intro s hok; exact ⟨s, rfl, hok, by simp, by simp⟩
  | cons x xs ih =>
    intro s hok
    obtain ⟨s1, hs1, hok1, hlen1, hperm1⟩ := insert_spec N hN h255 s x hok
    obtain ⟨s2, hs2, hok2, hlen2, hperm2⟩ := ih s1 hok1
    refine ⟨s2, ?_, hok2, ?_, ?_⟩
    · simp only [List.foldl_cons, Option.some_bind, hs1]
      exact hs2
    · rw [hlen2, hlen1]
      simp only [List.length_cons]
      omega
    · refine hperm2.trans ?_
      refine (hperm1.append_right xs).trans ?_
      exact (@List.perm_middle _ x s.root.flatten xs).symm

/-- Running any sequence of inserts from the empty container (with a
valid capacity) never panics; the final `len` is the number of inserts
and the stored multiset is exactly the multiset of inserted elements. -/
theorem runInserts_spec (N : ℕ) (hN : N ≠ 0) (h255 : N < 255)
    (xs : List α) :
    ∃ s, runInserts N xs = some s ∧ NodesOk N s.root ∧
      s.len = xs.length ∧ s.root.flatten.Perm xs := by
  obtain ⟨s, hs, hok, hlen, hperm⟩ := runInserts_go N hN h255 xs .new
    (fun b hb => absurd hb (by simp [LinkedLists.new]))
  refine ⟨s, hs, hok, ?_, ?_⟩
  · simpa [LinkedLists.new] using hlen
  · simpa [LinkedLists.new] using hperm

/-! ## Find-side lemmas -/

theorem bufFind_ok_some (x a : α) (t : List α) (i : ℕ)
    (h : bufFind x (a :: t) = .ok (some i)) :
    i < (a :: t).length ∧ (a :: t).getD i x = x := by
  simp only [bufFind] at h
  by_cases h1 : (a :: t).getLastD a < x
  · rw [if_pos h1] at h
    exact absurd h (by simp)
  · rw [if_neg h1] at h
    by_cases h2 : x < a
    · rw [if_pos h2] at h
      exact absurd h (by simp)
    · rw [if_neg h2] at h
      cases hbs : binarySearch (a :: t) x with
      | ok j =>
        rw [hbs] at h
        have h3 : j = i := by
          have h4 : Except.ok (ε := AbsoluteOrdering) (some j) =
              .ok (some i) := h
          simpa using h4
        subst h3
        exact binarySearch_ok _ _ _ hbs
      | error j =>
        rw [hbs] at h
        have h4 : Except.ok (ε := AbsoluteOrdering) (none : Option ℕ) =
            .ok (some i) := h
        simp at h4

/-- Chain-node find only ever returns an index of an equal element inside
one node's buffer (a node-local index, smaller than that buffer's
length, hence smaller than the capacity). -/
theorem nodeFind_spec (N : ℕ) (x : α) :
    ∀ (c : List (List α)), NodesOk N c → ∀ i, nodeFind x c = some i →
      ∃ b, b ∈ c ∧ i < b.length ∧ b.getD i x = x ∧ i < N := by
  intro c
  induction c with
  | nil =>
    intro _ i h
    exact absurd h (by simp [nodeFind])
  | cons b rest ih =>
    intro hok i h
    have hrest : NodesOk N rest := fun b2 hb2 =>
      hok b2 (List.mem_cons_of_mem _ hb2)
    obtain ⟨hbne, hblen, _⟩ := hok b (by simp)
    obtain ⟨a, t, rfl⟩ : ∃ a t, b = a :: t := by
      cases b with
      | nil => exact absurd rfl hbne
      | cons a t => exact ⟨a, t, rfl⟩
    simp only [nodeFind] at h
    cases hbf : bufFind x (a :: t) with
    | ok r =>
      rw [hbf] at h
      have hr : r = some i := h
      rw [hr] at hbf
      have hspec := bufFind_ok_some x a t i hbf
      exact ⟨a :: t, by simp, hspec.1, hspec.2,
        lt_of_lt_of_le hspec.1 hblen⟩
    | error d =>
      cases d with
      | Greater =>
        rw [hbf] at h
        obtain ⟨b2, hb2, hlen2, heq2, hN2⟩ := ih hrest i h
        exact ⟨b2, List.mem_cons_of_mem _ hb2, hlen2, heq2, hN2⟩
      | Less =>
        rw [hbf] at h
        exact Option.noConfusion h

/-! ## `bufInsert` error inversion (no invariant needed) -/

/-- A rejection from `BArrayVec::insert` happens only on a full buffer,
hands the item back unchanged, leaves the buffer unchanged, and carries
`Greater` exactly on `item > max`, `Less` exactly on `item < min`. -/
theorem bufInsert_err_inv (N : ℕ) (x a : α) (t : List α) (b2 : List α)
    (it : α) (d : AbsoluteOrdering)
    (h : bufInsert N x (a :: t) = some (b2, .err it d)) :
    b2 = a :: t ∧ it = x ∧ (a :: t).length = N ∧
      (d = .Greater → (a :: t).getLastD a < x) ∧
      (d = .Less → x < a) := by
  simp only [bufInsert] at h
  by_cases h1 : (a :: t).getLastD a < x
  · rw [if_pos h1] at h
    by_cases hfull : (a :: t).length ≠ N
    · have hpb : pushBack N (a :: t) x = .ok ((a :: t) ++ [x]) := by
        unfold pushBack
        rw [if_pos hfull]
      rw [hpb] at h
      have h4 : some ((a :: t) ++ [x], InsertResult.ok (α := α) none) =
          some (b2, .err it d) := h
      simp at h4
    · have hpb : pushBack N (a :: t) x = .error x := by
        unfold pushBack
        rw [if_neg hfull]
      rw [hpb] at h
      have h4 : some (a :: t, InsertResult.err x AbsoluteOrdering.Greater) =
          some (b2, .err it d) := h
      simp only [Option.some.injEq, Prod.mk.injEq,
        InsertResult.err.injEq] at h4
      obtain ⟨h5, h6, h7⟩ := h4
      subst h5
      subst h6
      subst h7
      exact ⟨rfl, rfl, by omega, fun _ => h1, fun hd => absurd hd (by simp)⟩
  · rw [if_neg h1] at h
    by_cases h2 : x < a
    · rw [if_pos h2] at h
      by_cases hfull : (a :: t).length = N
      · have hpf : pushFront N (a :: t) x = some (.error x) := by
          unfold pushFront
          rw [if_pos hfull]
        rw [hpf] at h
        have h4 : some (a :: t, InsertResult.err x AbsoluteOrdering.Less) =
            some (b2, .err it d) := h
        simp only [Option.some.injEq, Prod.mk.injEq,
          InsertResult.err.injEq] at h4
        obtain ⟨h5, h6, h7⟩ := h4
        subst h5
        subst h6
        subst h7
        exact ⟨rfl, rfl, hfull, fun hd => absurd hd (by simp), fun _ => h2⟩
      · have hpf : pushFront N (a :: t) x = some (.ok (x :: a :: t)) := by
          unfold pushFront
          rw [if_neg hfull, insertAt_not_full N (a :: t) 0 x (by simp) hfull]
          rfl
        rw [hpf] at h
        have h4 : some (x :: a :: t, InsertResult.ok (α := α) none) =
            some (b2, .err it d) := h
        simp at h4
    · rw [if_neg h2] at h
      cases hbs : binarySearch (a :: t) x with
      | ok j =>
        rw [hbs] at h
        have h3 : (insertAt N (a :: t) j x).map
            (fun p => (p.1, InsertResult.ok p.2)) =
            some (b2, .err it d) := h
        cases hins : insertAt N (a :: t) j x with
        | none =>
          rw [hins] at h3
          exact Option.noConfusion h3
        | some p =>
          rw [hins] at h3
          have h4 : some (p.1, InsertResult.ok p.2) =
              some (b2, .err it d) := h3
          simp at h4
      | error j =>
        rw [hbs] at h
        have h3 : (insertAt N (a :: t) j x).map
            (fun p => (p.1, InsertResult.ok p.2)) =
            some (b2, .err it d) := h
        cases hins : insertAt N (a :: t) j x with
        | none =>
          rw [hins] at h3
          exact Option.noConfusion h3
        | some p =>
          rw [hins] at h3
          have h4 : some (p.1, InsertResult.ok p.2) =
              some (b2, .err it d) := h3
          simp at h4

/-! ## The claims -/

/-- The cross-node ordering stated by the spec for C3: every element of an
earlier chain node is strictly less than every element of any later node. -/
def ChainStrictlyIncreasing (c : List (List α)) : Prop :=
  c.Pairwise (fun b1 b2 => ∀ x ∈ b1, ∀ y ∈ b2, x < y)

instance (c : List (List α)) : Decidable (ChainStrictlyIncreasing c) := by
  unfold ChainStrictlyIncreasing
  infer_instance

/-- C1 (code bug).  The claim says the head-to-tail concatenation of the
chain's buffers is always the ascending sorted sequence of the inserted
elements.  The code violates it: with capacity 2, inserting
`3, 4, 5, 1, 10` yields the chain `[[1, 10], [3, 4], [5]]` (the insert of
`1` splices a fresh non-full head node in front, and the later insert of
`10` is absorbed into that head because it only compares against the head's
own max), whose concatenation `[1, 10, 3, 4, 5]` is not sorted. -/
theorem c1_sortedness_code_bug :
    runInserts 2 ([3, 4, 5, 1, 10] : List ℤ) =
      some ⟨[[1, 10], [3, 4], [5]], 5⟩ ∧
    (LinkedLists.mk [[1, 10], [3, 4], [5]] 5 : LinkedLists ℤ).root.flatten =
      [1, 10, 3, 4, 5] ∧
    ¬ ([1, 10, 3, 4, 5] : List ℤ).Sorted (· ≤ ·) :=
  ⟨by decide, by decide, by decide⟩

/-- C2 (code bug).  The claim says `contains(x)` is true iff `x` was
inserted.  In the state reached by inserting `3, 4, 5, 1, 10` with
capacity 2, the element `4` was inserted yet `find 4 = none` and
`contains 4 = false` (the out-of-order head `[1, 10]` answers
"in range but absent" and the search never reaches the node `[3, 4]`). -/
theorem c2_lookup_code_bug :
    runInserts 2 ([3, 4, 5, 1, 10] : List ℤ) =
      some ⟨[[1, 10], [3, 4], [5]], 5⟩ ∧
    (4 : ℤ) ∈ ([3, 4, 5, 1, 10] : List ℤ) ∧
    (LinkedLists.mk [[1, 10], [3, 4], [5]] 5 : LinkedLists ℤ).find 4 =
      none ∧
    (LinkedLists.mk [[1, 10], [3, 4], [5]] 5 : LinkedLists ℤ).contains 4 =
      false :=
  ⟨by decide, by decide, by decide, by decide⟩

/-- C3 (code bug).  The claim says every element of an earlier node is
strictly less than every element of any later node.  The code violates it
twice over: (1) in the reachable state `[[1, 10], [3, 4], [5]]` (capacity
2, inserts `3, 4, 5, 1, 10`) the earlier node holds `10` which is not less
than the later node's `3` — even the non-strict version fails; (2) with
capacity 1, inserting `2, 2` gives `[[2], [2]]`, where the intended
duplicate handling already makes strictness (as opposed to `≤`) false. -/
theorem c3_global_ordering_code_bug :
    runInserts 2 ([3, 4, 5, 1, 10] : List ℤ) =
      some ⟨[[1, 10], [3, 4], [5]], 5⟩ ∧
    ¬ ChainStrictlyIncreasing ([[1, 10], [3, 4], [5]] : List (List ℤ)) ∧
    runInserts 1 ([2, 2] : List ℤ) = some ⟨[[2], [2]], 2⟩ ∧
    ¬ ChainStrictlyIncreasing ([[2], [2]] : List (List ℤ)) :=
  ⟨by decide, by decide, by decide, by decide⟩

/-- C4 (confirmed).  For any insert sequence on a container created
empty (with a capacity accepted by the constructor), no insert panics,
`length()` equals the number of inserts made, and it is zero exactly when
the root node is absent. -/
theorem c4_length_counts_inserts (N : ℕ) (xs : List α)
    (hN : 0 < N) (h255 : N < 255) :
    ∃ s, runInserts N xs = some s ∧ s.length = xs.length ∧
      (s.length = 0 ↔ s.root = []) := by
  obtain ⟨s, hs, hok, hlen, hperm⟩ := runInserts_spec N (by omega) h255 xs
  refine ⟨s, hs, hlen, ?_⟩
  unfold LinkedLists.length
  have hfl := hperm.length_eq
  constructor
  · intro h0
    rcases hroot : s.root with _ | ⟨b, rest⟩
    · rfl
    · exfalso
      obtain ⟨hbne, _, _⟩ := hok b (by rw [hroot]; simp)
      have hz : s.root.flatten.length = 0 := by
        rw [hfl]
        omega
      rw [hroot] at hz
      simp only [List.flatten_cons, List.length_append] at hz
      have hbpos := List.length_pos.mpr hbne
      omega
  · intro hroot
    have hz : s.root.flatten.length = 0 := by rw [hroot]; rfl
    omega

theorem c4_witness :
    ∃ s, runInserts 2 ([3, 1] : List ℤ) = some s ∧
      s.length = ([3, 1] : List ℤ).length ∧ (s.length = 0 ↔ s.root = []) :=
  c4_length_counts_inserts 2 [3, 1] (by decide) (by decide)

/-- C5 (confirmed).  On a reachable buffer (nonempty and sorted),
insert returns `err item Greater` iff the buffer is full and the item is
strictly greater than the max; `err item Less` iff full and strictly less
than the min; and every rejection hands the item back unchanged with the
buffer unchanged. -/
theorem c5_rejection_conditions (N : ℕ) (x a : α) (t : List α)
    (hs : (a :: t).Sorted (· ≤ ·)) :
    (bufInsert N x (a :: t) = some (a :: t, .err x .Greater) ↔
      (a :: t).length = N ∧ (a :: t).getLastD a < x) ∧
    (bufInsert N x (a :: t) = some (a :: t, .err x .Less) ↔
      (a :: t).length = N ∧ x < a) ∧
    (∀ b2 it d, bufInsert N x (a :: t) = some (b2, .err it d) →
      b2 = a :: t ∧ it = x) := by
  refine ⟨⟨fun h => ?_, fun h => ?_⟩, ⟨fun h => ?_, fun h => ?_⟩,
    fun b2 it d h => ?_⟩
  · obtain ⟨_, _, hfull, hg, _⟩ := bufInsert_err_inv N x a t _ _ _ h
    exact ⟨hfull, hg rfl⟩
  · simp only [bufInsert]
    rw [if_pos h.2]
    unfold pushBack
    rw [if_neg (by omega)]
  · obtain ⟨_, _, hfull, _, hl⟩ := bufInsert_err_inv N x a t _ _ _ h
    exact ⟨hfull, hl rfl⟩
  · have hax : ¬ (a :: t).getLastD a < x := by
      have ha : a ≤ (a :: t).getLastD a :=
        sorted_le_getLastD _ hs a (by simp) a
      exact not_lt.mpr (le_of_lt (lt_of_lt_of_le h.2 ha))
    simp only [bufInsert]
    rw [if_neg hax, if_pos h.2]
    unfold pushFront
    rw [if_pos h.1]
  · obtain ⟨hb2, hit, _, _, _⟩ := bufInsert_err_inv N x a t _ _ _ h
    exact ⟨hb2, hit⟩

theorem c5_witness :
    (bufInsert 5 (200 : ℤ) [-102, -101, 100, 101, 102] =
        some ([-102, -101, 100, 101, 102], .err 200 .Greater) ↔
      ([-102, -101, 100, 101, 102] : List ℤ).length = 5 ∧
        ([-102, -101, 100, 101, 102] : List ℤ).getLastD (-102) < 200) ∧
    (bufInsert 5 (200 : ℤ) [-102, -101, 100, 101, 102] =
        some ([-102, -101, 100, 101, 102], .err 200 .Less) ↔
      ([-102, -101, 100, 101, 102] : List ℤ).length = 5 ∧
        (200 : ℤ) < -102) ∧
    (∀ b2 it d,
      bufInsert 5 (200 : ℤ) [-102, -101, 100, 101, 102] =
          some (b2, .err it d) →
        b2 = [-102, -101, 100, 101, 102] ∧ it = 200) :=
  c5_rejection_conditions 5 200 (-102) [-101, 100, 101, 102] (by decide)

/-- C6 (confirmed).  Inserting into a full buffer an item that is
neither above the max nor below the min evicts and returns the old max;
the item lands at its sorted position (the result is sorted and its
contents are the old ones plus the item minus the old max), and the
length stays `N`. -/
theorem c6_eviction (N : ℕ) (x a : α) (t : List α)
    (hs : (a :: t).Sorted (· ≤ ·)) (hfull : (a :: t).length = N)
    (h1 : ¬ (a :: t).getLastD a < x) (h2 : ¬ x < a) :
    ∃ b2, bufInsert N x (a :: t) =
        some (b2, .ok (some ((a :: t).getLastD a))) ∧
      b2.Sorted (· ≤ ·) ∧ b2.length = N ∧
      (b2 ++ [(a :: t).getLastD a]).Perm (x :: a :: t) := by
  obtain ⟨idx, _, hidx, hlo, hhi, heq⟩ := bufInsert_mid N x a t hs h1 h2
  rw [insertAt_full N (a :: t) idx x hidx hfull] at heq
  simp only [Option.map_some'] at heq
  rw [getLastD_irrel a t a x]
  refine ⟨_, heq, ?_, ?_, ?_⟩
  · have hsM := sorted_insert_mid x (a :: t) idx hs
      (le_of_lt hidx) hlo (fun _ => hhi)
    have hsub : List.Sublist
        ((a :: t).take idx ++ x :: ((a :: t).drop idx).dropLast)
        ((a :: t).take idx ++ x :: (a :: t).drop idx) :=
      List.Sublist.append_left
        (List.Sublist.cons₂ x (List.dropLast_sublist _)) _
    exact List.Pairwise.sublist hsub hsM
  · simp only [List.length_append, List.length_take, List.length_cons,
      List.length_dropLast, List.length_drop]
    simp only [List.length_cons] at hfull hidx ⊢
    omega
  · have hassoc : ((a :: t).take idx ++
          x :: ((a :: t).drop idx).dropLast) ++ [(a :: t).getLastD x] =
        (a :: t).take idx ++
          x :: (((a :: t).drop idx).dropLast ++ [(a :: t).getLastD x]) := by
      simp [List.append_assoc]
    rw [hassoc]
    have hperm := @List.perm_middle _ x ((a :: t).take idx)
      (((a :: t).drop idx).dropLast ++ [(a :: t).getLastD x])
    refine hperm.trans (List.Perm.cons x (List.Perm.of_eq ?_))
    rw [← List.append_assoc, dropLast_take_drop _ _ hidx,
      dropLast_concat_getLastD _ (by simp) x]

theorem c6_witness :
    ∃ b2, bufInsert 5 (101 : ℤ) [-102, -101, 100, 102, 103] =
        some (b2, .ok (some (([-102, -101, 100, 102, 103] :
          List ℤ).getLastD (-102)))) ∧
      b2.Sorted (· ≤ ·) ∧ b2.length = 5 ∧
      (b2 ++ [([-102, -101, 100, 102, 103] : List ℤ).getLastD
        (-102)]).Perm (101 :: [-102, -101, 100, 102, 103]) :=
  c6_eviction 5 101 (-102) [-101, 100, 102, 103] (by decide) (by decide)
    (by decide) (by decide)

/-- C7 (corrected).  The claim says construction succeeds for every
`1 ≤ N ≤ 255`.  In fact `BArrayVec::new` asserts
`N != 0 && N < u8::MAX as usize`, i.e. it also rejects `N = 255`:
`newBuf 255` panics even though a length up to 255 would be representable
in the `NonZeroU8` length field. -/
theorem c7_counterexample : newBuf 255 (0 : ℤ) = none := by decide

omit [LinearOrder α] in
/-- C7 (amended):  `create` succeeds and builds a buffer holding
exactly the item iff `0 < N < 255`; construction halts (panics) exactly
when `N = 0` or `N ≥ 255`. -/
theorem c7_create_range (N : ℕ) (x : α) :
    (0 < N ∧ N < 255 → newBuf N x = some [x]) ∧
    ((N = 0 ∨ 255 ≤ N) → newBuf N x = none) := by
  constructor
  · intro h
    exact newBuf_ok N x (by omega) h.2
  · intro h
    unfold newBuf
    rw [if_neg (by omega)]

theorem c7_witness :
    newBuf 254 (0 : ℤ) = some [0] ∧ newBuf 255 (1 : ℤ) = none :=
  ⟨(c7_create_range 254 0).1 (by omega), (c7_create_range 255 1).2 (by omega)⟩

/-- C8 (confirmed).  When the buffer rejects with `Less`, the node is
left holding only the (unchanged) item, and its new successor is a fresh
node carrying the node's entire previous contents — its previous buffer
and, one link deeper, its whole previous successor chain `rest`. -/
theorem c8_splice_front (N : ℕ) (hN : 0 < N) (h255 : N < 255) (x : α)
    (b b2 : List α) (rest : List (List α)) (it : α)
    (h : bufInsert N x b = some (b2, .err it .Less)) :
    nodeInsert N x (b :: rest) = some ([it] :: b2 :: rest) ∧
      b2 = b ∧ it = x := by
  obtain ⟨a, t, rfl⟩ : ∃ a t, b = a :: t := by
    cases b with
    | nil => exact absurd h (by simp [bufInsert])
    | cons a t => exact ⟨a, t, rfl⟩
  obtain ⟨hb2, hit, _, _, _⟩ := bufInsert_err_inv N x a t b2 it .Less h
  refine ⟨?_, hb2, hit⟩
  simp only [nodeInsert, h, newBuf_ok N it (by omega) h255, Option.map_some']

theorem c8_witness :
    nodeInsert 1 (3 : ℤ) [[5]] = some [[3], [5]] ∧
      ([5] : List ℤ) = [5] ∧ (3 : ℤ) = 3 :=
  c8_splice_front 1 (by decide) (by decide) 3 [5] [5] [] 3 (by decide)

/-- C9 (confirmed).  On a reachable buffer (nonempty, sorted, within
capacity) the public insert never reaches the defensive
"insert overflows allocation" panic of `_insert` (modelled by `none`):
the call always returns a value, and in the binary-search branch the
computed index is strictly below the current length. -/
theorem c9_no_panic (N : ℕ) (x a : α) (t : List α)
    (hs : (a :: t).Sorted (· ≤ ·)) (hlen : (a :: t).length ≤ N) :
    (bufInsert N x (a :: t)).isSome = true ∧
    (∀ idx, (binarySearch (a :: t) x = .ok idx ∨
        binarySearch (a :: t) x = .error idx) →
      ¬ (a :: t).getLastD a < x → ¬ x < a →
      idx < (a :: t).length) := by
  constructor
  · obtain ⟨b2, res, heq, _⟩ := bufInsert_spec N x a t hs hlen
    rw [heq]
    rfl
  · intro idx hbs h1 h2
    obtain ⟨idx2, hbs2, hlt2, _, _, _⟩ := bufInsert_mid N x a t hs h1 h2
    rcases hbs with hbs | hbs <;> rcases hbs2 with hbs2 | hbs2 <;>
      rw [hbs] at hbs2
    · injection hbs2 with h3
      omega
    · exact Except.noConfusion hbs2
    · exact Except.noConfusion hbs2
    · injection hbs2 with h3
      omega

theorem c9_witness :
    (bufInsert 5 (101 : ℤ) [-102, -101, 100, 102, 103]).isSome = true :=
  (c9_no_panic 5 101 (-102) [-101, 100, 102, 103] (by decide)
    (by decide)).1

/-- C10 (confirmed).  Whenever `find x` returns `some i`, `i` is an
index of an element equal to `x` inside the buffer of one chain node
(`i` is below that buffer's length, hence below `N`) — it is not `x`'s
rank in the whole container: with capacity 1 and inserts `1, 2, 3`, the
present element `3` gets `find 3 = some 0`, strictly smaller than the
number (2) of stored elements less than `3`. -/
theorem c10_find_index_is_node_local (N : ℕ) (xs : List α) (x : α)
    (s : LinkedLists α) (i : ℕ) (hN : 0 < N) (h255 : N < 255)
    (hrun : runInserts N xs = some s) (hfind : s.find x = some i) :
    (∃ b, b ∈ s.root ∧ i < b.length ∧ b.getD i x = x ∧ i < N) ∧
    (runInserts 1 ([1, 2, 3] : List ℤ) = some ⟨[[1], [2], [3]], 3⟩ ∧
      (LinkedLists.mk [[1], [2], [3]] 3 : LinkedLists ℤ).find 3 =
        some 0 ∧
      0 < (([1, 2, 3] : List ℤ).filter (fun y => y < 3)).length) := by
  constructor
  · obtain ⟨s2, hs2, hok, _, _⟩ := runInserts_spec N (by omega) h255 xs
    rw [hrun] at hs2
    injection hs2 with h3
    subst h3
    exact nodeFind_spec N x s.root hok i hfind
  · exact ⟨by decide, by decide, by decide⟩

theorem c10_witness :
    ∃ b, b ∈ (LinkedLists.mk [[1], [2], [3]] 3 : LinkedLists ℤ).root ∧
      0 < b.length ∧ b.getD 0 3 = 3 ∧ 0 < 1 :=
  (c10_find_index_is_node_local 1 [1, 2, 3] 3 ⟨[[1], [2], [3]], 3⟩ 0
    (by decide) (by decide) (by decide) (by decide)).1

end Blist
